import Mathlib

/-!
Verification of the Scenario Store of `opengov_earlygerman`
(`src/opengov_earlygerman/ai/conversation.py` and the scenario resolution in
`src/opengov_earlygerman/cli.py`), shallowly embedded in Lean 4.

JSON values (as produced by `json.load`) are modelled by `JValue`; Python
dicts are modelled as insertion-ordered association lists with the exact
Python semantics: lookup finds the first (unique, for genuine dicts) key,
`d[k] = v` replaces in place keeping the key's position and appends fresh
keys at the end.  Python exceptions are modelled by `Option`.
-/

set_option autoImplicit false

/-- A JSON value.  Numbers are modelled as integers; the claims under
verification never depend on non-integral numerics. -/
inductive JValue where
  | null
  | bool (b : Bool)
  | num (n : Int)
  | str (s : String)
  | arr (xs : List JValue)
  | obj (fs : List (String × JValue))

mutual

/-- Python `==` on JSON values: structural equality. -/
def JValue.beq : JValue → JValue → Bool
  | JValue.null, JValue.null => true
  | JValue.bool x, JValue.bool y => x == y
  | JValue.num x, JValue.num y => x == y
  | JValue.str x, JValue.str y => x == y
  | JValue.arr xs, JValue.arr ys => JValue.beqArr xs ys
  | JValue.obj xs, JValue.obj ys => JValue.beqObj xs ys
  | _, _ => false

/-- Python `==` on two JSON arrays: elementwise. -/
def JValue.beqArr : List JValue → List JValue → Bool
  | [], [] => true
  | x :: xs, y :: ys => JValue.beq x y && JValue.beqArr xs ys
  | _, _ => false

/-- Python `==` on two JSON objects (as ordered pair lists). -/
def JValue.beqObj : List (String × JValue) → List (String × JValue) → Bool
  | [], [] => true
  | (k, x) :: xs, (l, y) :: ys => k == l && JValue.beq x y && JValue.beqObj xs ys
  | _, _ => false

end

/-- Python `x in lst` for a list of JSON values: membership by `==`. -/
def jmem (x : JValue) (l : List JValue) : Bool := l.any (fun y => JValue.beq x y)

/-- The field table of one scenario entry (a Python dict `str -> Any`). -/
abbrev Fields := List (String × JValue)

/-- A scenario collection (a Python dict `str -> Any`; values are dicts for
the built-in base but may be arbitrary after an overlay). -/
abbrev Coll := List (String × JValue)

/-- Python `d.get(k)` / `d[k]`: the value at the first occurrence of `k`. -/
def dictGet {β : Type} : List (String × β) → String → Option β
  | [], _ => none
  | (k', v) :: t, k => if k' = k then some v else dictGet t k

/-- Python `d[k] = v`: replace in place at the first occurrence of `k`,
otherwise append `(k, v)` at the end. -/
def dictInsert {β : Type} : List (String × β) → String → β → List (String × β)
  | [], k, v => [(k, v)]
  | (k', v') :: t, k, v =>
      if k' = k then (k, v) :: t else (k', v') :: dictInsert t k v

/-- Python `base.update(over)`: insert every entry of `over`, in order. -/
def dictUpdate {β : Type} (base over : List (String × β)) : List (String × β) :=
  over.foldl (fun d p => dictInsert d p.1 p.2) base

/-- Is the value a JSON object (Python `isinstance(v, dict)`)? -/
def JValue.isObj : JValue → Bool
  | JValue.obj _ => true
  | _ => false

/-- The value stored for one field after `_merge_scenarios` has processed an
overlay field `oval` against the current value `mv` (`merged.get(field)`):
two mappings merge key-wise, two lists append (deduplicating against the
base list) when `append_lists` is set, anything else is replaced. -/
def mergedFieldValue (al : Bool) : Option JValue → JValue → JValue
  | some (JValue.obj nested), JValue.obj onest => JValue.obj (dictUpdate nested onest)
  | some (JValue.arr bl), JValue.arr ol =>
      if al then JValue.arr (bl ++ ol.filter (fun x => ! jmem x bl)) else JValue.arr ol
  | _, oval => oval

/-- One iteration of the inner field loop of `_merge_scenarios`. -/
def mergeField (al : Bool) (merged : Fields) (field : String) (oval : JValue) : Fields :=
  dictInsert merged field (mergedFieldValue al (dictGet merged field) oval)

/-- The inner field loop of `_merge_scenarios`: merge the fields of the
overlay entry `of` into a copy of the base entry `bf`, in overlay order. -/
def mergeFields (al : Bool) (bf of : Fields) : Fields :=
  of.foldl (fun m p => mergeField al m p.1 p.2) bf

/-- One iteration of the outer loop of `_merge_scenarios`.  `none` models the
`TypeError` Python raises from `dict(result[name])` when the current entry is
not a mapping while the overlay entry is (unreachable when the overlay comes
from `json.load`, whose objects have unique keys). -/
def mergeEntry (al : Bool) (result : Coll) (name : String) (odata : JValue) : Option Coll :=
  match dictGet result name, odata with
  | some (JValue.obj bf), JValue.obj of =>
      some (dictInsert result name (JValue.obj (mergeFields al bf of)))
  | some _, JValue.obj _ => none
  | _, odata => some (dictInsert result name odata)

/-- The built-in base collection, as the `result` dict `_merge_scenarios`
starts from (`{k: dict(v) for k, v in base.items()}`). -/
def baseColl (base : List (String × Fields)) : Coll :=
  base.map (fun kv => (kv.1, JValue.obj kv.2))

/-- `AIConversationPartner._merge_scenarios`: fold the overlay entries, in
document order, over a copy of the base collection. -/
def mergeScenarios (al : Bool) (base : List (String × Fields))
    (override : List (String × JValue)) : Option Coll :=
  override.foldl (fun acc p => acc.bind (fun r => mergeEntry al r p.1 p.2)) (some (baseColl base))

/-- The outcome of reading the overlay file in `_load_scenarios`:
the file does not exist; reading or parsing it raised an exception
(`IOError`, permission error, `json.JSONDecodeError`); or it parsed to a
JSON value. -/
inductive OverlayDoc where
  | absent
  | unreadable
  | parsed (v : JValue)

/-- `AIConversationPartner._load_scenarios`, given the outcome of reading the
overlay file.  Returns the resulting collection and whether a warning-level
diagnostic was logged (`logger.warning` fires exactly when an exception was
caught). -/
def load (al : Bool) (base : List (String × Fields)) (doc : OverlayDoc) : Coll × Bool :=
  match doc with
  | OverlayDoc.absent => (baseColl base, false)
  | OverlayDoc.unreadable => (baseColl base, true)
  | OverlayDoc.parsed v =>
      match v with
      | JValue.obj o =>
          match mergeScenarios al base o with
          | some r => (r, false)
          | none => (baseColl base, true)
      | _ => (baseColl base, false)

/-- `AIConversationPartner.available_scenarios` / the spec's `list_names`:
`list(collection.keys())`, i.e. insertion order. -/
def listNames (coll : Coll) : List String := coll.map Prod.fst

/-- The value `mergeEntry` stores for an overlay entry `(name, v)`, in terms
of the base collection's value at `name`: a field-by-field merge when both
sides are mappings, the overlay value verbatim otherwise. -/
def mergedEntryValue (al : Bool) : Option JValue → JValue → JValue
  | some (JValue.obj bf), JValue.obj of => JValue.obj (mergeFields al bf of)
  | _, v => v

/-- Python `str.lower()` on one character, restricted to the character
repertoire this repository uses (ASCII letters and the German capitals
`Ä`, `Ö`, `Ü`; `ß` and already-lowercase characters map to themselves). -/
def charLower (c : Char) : Char :=
  if ('A' ≤ c ∧ c ≤ 'Z') ∨ c = 'Ä' ∨ c = 'Ö' ∨ c = 'Ü' then Char.ofNat (c.toNat + 32) else c

/-- Python `s.lower()` (see `charLower` for the modelled repertoire). -/
def pyLower (s : String) : String := String.mk (s.data.map charLower)

/-- Python `a < b` on strings: lexicographic by code point. -/
def strLtB : List Char → List Char → Bool
  | [], [] => false
  | [], _ :: _ => true
  | _ :: _, [] => false
  | a :: as, b :: bs => if a < b then true else if b < a then false else strLtB as bs

/-- Length of the longest common prefix of two character lists. -/
def commonPrefixLen : List Char → List Char → Nat
  | a :: as, b :: bs => if a = b then commonPrefixLen as bs + 1 else 0
  | _, _ => 0

/-- `difflib.SequenceMatcher.find_longest_match` over the whole ranges (no
junk: the autojunk heuristic only applies to sequences of 200+ elements,
far beyond scenario names): the longest block `a[i:i+k] == b[j:j+k]`,
ties broken by least `i`, then least `j`. -/
def longestMatch (a b : List Char) : Nat × Nat × Nat :=
  (List.range a.length).foldl
    (fun best i =>
      (List.range b.length).foldl
        (fun best j =>
          let k := commonPrefixLen (a.drop i) (b.drop j)
          if k > best.2.2 then (i, j, k) else best)
        best)
    (0, 0, 0)

/-- Total size of `SequenceMatcher.get_matching_blocks` (Ratcliff-Obershelp):
recursively take the longest match and recurse on both sides.  The fuel
argument only makes the recursion structural; `a.length + b.length + 1`
always suffices because each recursive call strictly shrinks the total. -/
def matchedTotal : Nat → List Char → List Char → Nat
  | 0, _, _ => 0
  | fuel + 1, a, b =>
      let m := longestMatch a b
      if m.2.2 = 0 then 0
      else
        matchedTotal fuel (a.take m.1) (b.take m.2.1) + m.2.2 +
          matchedTotal fuel (a.drop (m.1 + m.2.2)) (b.drop (m.2.1 + m.2.2))

/-- `SequenceMatcher.ratio()` for `seq1 = a`, `seq2 = b`, as an exact
rational `(numerator, denominator)`; `2.0 * M / T`, and `1.0` when both
sequences are empty.  Exact comparison agrees with Python's float
comparison here: with these tiny denominators, distinct rationals are
never rounded to the same double. -/
def ratioPair (a b : List Char) : Nat × Nat :=
  let n := 2 * matchedTotal (a.length + b.length + 1) a b
  let d := a.length + b.length
  if d = 0 then (1, 1) else (n, d)

/-- Does `SequenceMatcher(None, x, word).ratio() >= 0.6`, the cutoff used by
`difflib.get_close_matches` (its `real_quick_ratio`/`quick_ratio` gates are
upper bounds of `ratio`, so they never change the outcome)? -/
def passesCutoff (x word : List Char) : Bool :=
  let p := ratioPair x word
  6 * p.2 ≤ 10 * p.1

/-- Is candidate `x` strictly better than `b` for `heapq.nlargest` on
`(ratio, candidate)` pairs: greater ratio, or equal ratio and greater
string? -/
def betterCand (word : List Char) (x b : String) : Bool :=
  let px := ratioPair x.data word
  let pb := ratioPair b.data word
  (pb.1 * px.2 < px.1 * pb.2) || ((px.1 * pb.2 == pb.1 * px.2) && strLtB b.data x.data)

/-- `difflib.get_close_matches(word, poss, n=1, cutoff=0.6)`: the best
candidate above the cutoff, if any. -/
def getCloseMatch (word : List Char) (poss : List String) : Option String :=
  (poss.filter (fun x => passesCutoff x.data word)).foldl
    (fun best x =>
      match best with
      | none => some x
      | some b => if betterCand word x b then some x else some b)
    none

/-- The CLI's `lower_map`: `{n.lower(): n for n in avail}` — on duplicate
lowercased names the later original wins, keeping the first position. -/
def lowerMapOf (avail : List String) : List (String × String) :=
  avail.foldl (fun m n => dictInsert m (pyLower n) n) []

/-- Outcome of the CLI's scenario-name resolution. -/
inductive LookupResult where
  | found (name : String)
  | notFound (suggestion : Option String)
  deriving DecidableEq

/-- The scenario-name resolution of the `scenario` CLI command
(`src/opengov_earlygerman/cli.py`): exact match, then case-insensitive
match via `lower_map`, then a fuzzy `get_close_matches` suggestion.
`lower_map[matches[0]]` is always present, so the `getD` default is inert. -/
def lookup (avail : List String) (requested : String) : LookupResult :=
  if requested ∈ avail then LookupResult.found requested
  else
    let lm := lowerMapOf avail
    let kl := pyLower requested
    match dictGet lm kl with
    | some canon => LookupResult.found canon
    | none =>
        match getCloseMatch kl.data (lm.map Prod.fst) with
        | some m => LookupResult.notFound (some ((dictGet lm m).getD m))
        | none => LookupResult.notFound none

/-- Python truthiness of a JSON value (`if not scenario: ...`). -/
def pyTruthy : JValue → Bool
  | JValue.null => false
  | JValue.bool b => b
  | JValue.num n => n ≠ 0
  | JValue.str s => s ≠ ""
  | JValue.arr l => ! l.isEmpty
  | JValue.obj l => ! l.isEmpty

/-- The dict `AIConversationPartner.scenario` returns, built from a scenario
entry's field table with `scenario.get(..., default)`. -/
structure ScenarioView where
  dialogue : JValue
  english : JValue
  setting : JValue
  vocabulary : JValue
  useful_phrases : JValue
  cultural_tips : JValue

/-- The placeholder `scenario` returns when the selected entry is falsy. -/
def placeholderView : ScenarioView :=
  { dialogue := JValue.str ""
    english := JValue.str ""
    setting := JValue.str "Scenario not found"
    vocabulary := JValue.obj []
    useful_phrases := JValue.arr []
    cultural_tips := JValue.arr [] }

/-- The view `scenario` builds from a (truthy) mapping entry. -/
def viewOf (fs : Fields) : ScenarioView :=
  { dialogue := (dictGet fs "starter").getD (JValue.str "")
    english := (dictGet fs "english").getD (JValue.str "")
    setting := (dictGet fs "setting").getD (JValue.str "")
    vocabulary := (dictGet fs "vocabulary").getD (JValue.obj [])
    useful_phrases := (dictGet fs "useful_phrases").getD (JValue.arr [])
    cultural_tips := (dictGet fs "cultural_tips").getD (JValue.arr []) }

/-- `AIConversationPartner.scenario`: fall back to the `"Bäckerei"` entry
(default `{}`), return the placeholder when the selected value is falsy,
otherwise read its fields; `none` models the `AttributeError` Python raises
on `scenario.get` when the selected value is truthy but not a mapping. -/
def scenarioOp (coll : Coll) (name : String) : Option ScenarioView :=
  let s := (dictGet coll name).getD ((dictGet coll "Bäckerei").getD (JValue.obj []))
  if pyTruthy s = false then some placeholderView
  else
    match s with
    | JValue.obj fs => some (viewOf fs)
    | _ => none

/-- Sample base entry (shape of the built-in scenarios, cut down). -/
def dFields : Fields :=
  [("setting", JValue.str "You're at a German bakery"),
   ("useful_phrases", JValue.arr [JValue.str "P1"]),
   ("vocabulary", JValue.obj [("a", JValue.str "b")])]

/-- Sample base collection with one scenario `"S"`. -/
def dBase : List (String × Fields) := [("S", dFields)]

/-- Sample overlay refining the list field of `"S"`. -/
def dOvList : List (String × JValue) :=
  [("S", JValue.obj [("useful_phrases", JValue.arr [JValue.str "P2"])])]

/-- Sample overlay refining the mapping field of `"S"`. -/
def dOvMap : List (String × JValue) :=
  [("S", JValue.obj [("vocabulary", JValue.obj [("x", JValue.str "y")])])]

/-- Sample overlay introducing a brand-new scenario `"T"`. -/
def dOvNew : List (String × JValue) :=
  [("T", JValue.obj [("setting", JValue.str "post office")])]

/-- Sample overlay mapping the base name `"S"` to a non-mapping value. -/
def dOvBad : List (String × JValue) := [("S", JValue.str "x")]

/-- Sample collection whose `"Bäckerei"` entry is falsy (`0`), as an overlay
mapping `"Bäckerei"` to `0` produces. -/
def cBack : Coll := [("Bäckerei", JValue.num 0)]

@[simp] theorem dictGet_nil {β : Type} (k : String) :
    dictGet ([] : List (String × β)) k = none := rfl

@[simp] theorem dictGet_cons {β : Type} (k' : String) (v : β)
    (t : List (String × β)) (k : String) :
    dictGet ((k', v) :: t) k = if k' = k then some v else dictGet t k := rfl

theorem dictGet_dictInsert_self {β : Type} (d : List (String × β)) (k : String) (v : β) :
    dictGet (dictInsert d k v) k = some v := by
  induction d with
  | nil => simp [dictInsert]
  | cons hd t ih =>
      obtain ⟨k', v'⟩ := hd
      by_cases h : k' = k
      · simp [dictInsert, h]
      · simp [dictInsert, h, ih]

theorem dictGet_dictInsert_ne {β : Type} (d : List (String × β)) (k : String) (v : β)
    (k' : String) (h : k ≠ k') :
    dictGet (dictInsert d k v) k' = dictGet d k' := by
  induction d with
  | nil => simp [dictInsert, h]
  | cons hd t ih =>
      obtain ⟨k₀, v₀⟩ := hd
      by_cases h0 : k₀ = k
      · subst h0
        simp [dictInsert, h]
      · simp [dictInsert, h0, ih]

theorem keys_dictInsert {β : Type} (d : List (String × β)) (k : String) (v : β) :
    (dictInsert d k v).map Prod.fst =
      if k ∈ d.map Prod.fst then d.map Prod.fst else d.map Prod.fst ++ [k] := by
  induction d with
  | nil => simp [dictInsert]
  | cons hd t ih =>
      obtain ⟨k₀, v₀⟩ := hd
      by_cases h0 : k₀ = k
      · subst h0
        simp [dictInsert]
      · have hne : ¬ k = k₀ := fun h => h0 h.symm
        by_cases hmem : k ∈ t.map Prod.fst
        · simp [dictInsert, h0, ih, hmem, hne]
        · simp [dictInsert, h0, ih, hmem, hne]

theorem dictGet_eq_none_iff {β : Type} (d : List (String × β)) (k : String) :
    dictGet d k = none ↔ k ∉ d.map Prod.fst := by
  induction d with
  | nil => simp
  | cons hd t ih =>
      obtain ⟨k₀, v₀⟩ := hd
      by_cases h0 : k₀ = k
      · subst h0
        simp
      · have hne : ¬ k = k₀ := fun h => h0 h.symm
        simp [h0, hne, ih]

theorem dictGet_mem {β : Type} (d : List (String × β)) (k : String) (v : β)
    (h : dictGet d k = some v) : (k, v) ∈ d := by
  induction d with
  | nil => simp at h
  | cons hd t ih =>
      obtain ⟨k₀, v₀⟩ := hd
      by_cases h0 : k₀ = k
      · subst h0
        simp at h
        simp [h]
      · simp [h0] at h
        exact List.mem_cons_of_mem _ (ih h)

theorem mem_dictInsert {β : Type} (d : List (String × β)) (k : String) (v : β)
    (p : String × β) (h : p ∈ dictInsert d k v) : p ∈ d ∨ p = (k, v) := by
  induction d with
  | nil => simp [dictInsert] at h; simp [h]
  | cons hd t ih =>
      obtain ⟨k₀, v₀⟩ := hd
      by_cases h0 : k₀ = k
      · subst h0
        simp [dictInsert] at h
        rcases h with h | h
        · right; simp [h]
        · left; exact List.mem_cons_of_mem _ h
      · simp [dictInsert, h0] at h
        rcases h with h | h
        · left; simp [h]
        · rcases ih h with h' | h'
          · left; exact List.mem_cons_of_mem _ h'
          · right; exact h'

theorem dictGet_eq_some_of_mem_nodup {β : Type} (d : List (String × β))
    (k : String) (v : β) (hmem : (k, v) ∈ d) (hnd : (d.map Prod.fst).Nodup) :
    dictGet d k = some v := by
  induction d with
  | nil => simp at hmem
  | cons hd t ih =>
      obtain ⟨k₀, v₀⟩ := hd
      rw [List.map_cons, List.nodup_cons] at hnd
      rcases List.mem_cons.mp hmem with h | h
      · rw [Prod.mk.injEq] at h
        obtain ⟨h1, h2⟩ := h
        subst h1; subst h2
        simp
      · have hkmem : k ∈ t.map Prod.fst := by
          have := List.mem_map_of_mem Prod.fst h
          simpa using this
        have hk : ¬ k₀ = k := fun he => hnd.1 (by rw [he]; exact hkmem)
        simp [hk]
        exact ih h hnd.2

theorem beqArr_iff (xs ys : List JValue)
    (h : ∀ x ∈ xs, ∀ y, JValue.beq x y = true ↔ x = y) :
    JValue.beqArr xs ys = true ↔ xs = ys := by
  induction xs generalizing ys with
  | nil => cases ys <;> simp [JValue.beqArr]
  | cons x xs ih =>
      cases ys with
      | nil => simp [JValue.beqArr]
      | cons y ys =>
          simp [JValue.beqArr, h x (by simp) y,
            ih ys (fun x hx y => h x (by simp [hx]) y)]

theorem beqObj_iff (xs ys : List (String × JValue))
    (h : ∀ p ∈ xs, ∀ y, JValue.beq p.2 y = true ↔ p.2 = y) :
    JValue.beqObj xs ys = true ↔ xs = ys := by
  induction xs generalizing ys with
  | nil => cases ys <;> simp [JValue.beqObj]
  | cons p xs ih =>
      obtain ⟨k, x⟩ := p
      cases ys with
      | nil => simp [JValue.beqObj]
      | cons q ys =>
          obtain ⟨l, y⟩ := q
          simp [JValue.beqObj, h (k, x) (by simp) y,
            ih ys (fun p hp y => h p (by simp [hp]) y), Prod.ext_iff, and_assoc]

theorem jbeq_iff_aux :
    ∀ (n : Nat) (a : JValue), sizeOf a ≤ n → ∀ b, (JValue.beq a b = true ↔ a = b) := by
  intro n
  induction n with
  | zero =>
      intro a ha
      exact absurd ha (by cases a <;> simp)
  | succ n ih =>
      intro a ha b
      cases a <;> cases b <;> simp [JValue.beq]
      case arr.arr xs ys =>
        have hxs : sizeOf xs ≤ n := by simp at ha; omega
        refine beqArr_iff xs ys ?_
        intro x hx y
        exact ih x (le_of_lt (lt_of_lt_of_le (List.sizeOf_lt_of_mem hx) hxs)) y
      case obj.obj xs ys =>
        have hxs : sizeOf xs ≤ n := by simp at ha; omega
        refine beqObj_iff xs ys ?_
        intro p hp y
        have h1 : sizeOf p.2 < sizeOf p := by
          obtain ⟨k, x⟩ := p
          simp
        exact ih p.2
          (le_of_lt (lt_of_lt_of_le (lt_trans h1 (List.sizeOf_lt_of_mem hp)) hxs)) y

theorem jbeq_iff (a b : JValue) : JValue.beq a b = true ↔ a = b :=
  jbeq_iff_aux (sizeOf a) a (le_refl _) b

theorem jmem_iff (x : JValue) (l : List JValue) : jmem x l = true ↔ x ∈ l := by
  simp [jmem, List.any_eq_true, jbeq_iff]

theorem dictGet_baseColl (base : List (String × Fields)) (n : String) :
    dictGet (baseColl base) n = (dictGet base n).map JValue.obj := by
  induction base with
  | nil => simp [baseColl]
  | cons hd t ih =>
      obtain ⟨k, v⟩ := hd
      by_cases h : k = n
      · simp [baseColl, h]
      · simpa [baseColl, h] using ih

theorem dictGet_dictUpdate_of_none {β : Type} (k : String) :
    ∀ (o b : List (String × β)), dictGet o k = none →
      dictGet (dictUpdate b o) k = dictGet b k := by
  intro o
  induction o with
  | nil => intro b _; rfl
  | cons hd t ih =>
      intro b h
      obtain ⟨k0, v0⟩ := hd
      by_cases h0 : k0 = k
      · simp [h0] at h
      · simp [h0] at h
        rw [show dictUpdate b ((k0, v0) :: t) = dictUpdate (dictInsert b k0 v0) t from rfl,
          ih _ h, dictGet_dictInsert_ne _ _ _ _ h0]

theorem dictGet_dictUpdate_of_some {β : Type} (k : String) :
    ∀ (o b : List (String × β)) (v : β), (o.map Prod.fst).Nodup →
      dictGet o k = some v → dictGet (dictUpdate b o) k = some v := by
  intro o
  induction o with
  | nil => intro b v _ h; simp at h
  | cons hd t ih =>
      intro b v hnd h
      obtain ⟨k0, v0⟩ := hd
      rw [List.map_cons, List.nodup_cons] at hnd
      by_cases h0 : k0 = k
      · subst h0
        simp at h
        subst h
        have ht : dictGet t k0 = none := (dictGet_eq_none_iff t k0).mpr hnd.1
        rw [show dictUpdate b ((k0, v0) :: t) = dictUpdate (dictInsert b k0 v0) t from rfl,
          dictGet_dictUpdate_of_none _ _ _ ht, dictGet_dictInsert_self]
      · simp [h0] at h
        rw [show dictUpdate b ((k0, v0) :: t) = dictUpdate (dictInsert b k0 v0) t from rfl]
        exact ih _ _ hnd.2 h

theorem mem_keys_dictInsert_of_mem {β : Type} (d : List (String × β)) (k : String) (v : β)
    (f : String) (h : f ∈ d.map Prod.fst) : f ∈ (dictInsert d k v).map Prod.fst := by
  rw [keys_dictInsert]
  split <;> simp [h]

theorem mergeFields_cons (al : Bool) (bf : Fields) (p : String × JValue) (t : Fields) :
    mergeFields al bf (p :: t) = mergeFields al (mergeField al bf p.1 p.2) t := rfl

theorem dictGet_mergeField_self (al : Bool) (bf : Fields) (f0 : String) (v0 : JValue) :
    dictGet (mergeField al bf f0 v0) f0 =
      some (mergedFieldValue al (dictGet bf f0) v0) :=
  dictGet_dictInsert_self _ _ _

theorem dictGet_mergeField_ne (al : Bool) (bf : Fields) (f0 : String) (v0 : JValue)
    (field : String) (h : f0 ≠ field) :
    dictGet (mergeField al bf f0 v0) field = dictGet bf field :=
  dictGet_dictInsert_ne _ _ _ _ h

theorem mem_keys_mergeFields (al : Bool) (f : String) :
    ∀ (of bf : Fields), f ∈ bf.map Prod.fst →
      f ∈ (mergeFields al bf of).map Prod.fst := by
  intro of
  induction of with
  | nil => intro bf h; simpa [mergeFields] using h
  | cons p t ih =>
      intro bf h
      rw [mergeFields_cons]
      exact ih _ (mem_keys_dictInsert_of_mem _ _ _ _ h)

theorem mergeFields_get_none (al : Bool) (field : String) :
    ∀ (of bf : Fields), dictGet of field = none →
      dictGet (mergeFields al bf of) field = dictGet bf field := by
  intro of
  induction of with
  | nil => intro bf _; rfl
  | cons p t ih =>
      intro bf h
      obtain ⟨f0, v0⟩ := p
      by_cases h0 : f0 = field
      · simp [h0] at h
      · simp [h0] at h
        rw [mergeFields_cons, ih _ h]
        exact dictGet_mergeField_ne al bf f0 v0 field h0

theorem mergeFields_get_some (al : Bool) (field : String) :
    ∀ (of bf : Fields) (oval : JValue), (of.map Prod.fst).Nodup →
      dictGet of field = some oval →
      dictGet (mergeFields al bf of) field =
        some (mergedFieldValue al (dictGet bf field) oval) := by
  intro of
  induction of with
  | nil => intro bf oval _ h; simp at h
  | cons p t ih =>
      intro bf oval hnd h
      obtain ⟨f0, v0⟩ := p
      rw [List.map_cons, List.nodup_cons] at hnd
      by_cases h0 : f0 = field
      · subst h0
        simp at h
        subst h
        have ht : dictGet t f0 = none := (dictGet_eq_none_iff t f0).mpr hnd.1
        rw [mergeFields_cons, mergeFields_get_none al f0 t _ ht]
        exact dictGet_mergeField_self al bf f0 v0
      · simp [h0] at h
        rw [mergeFields_cons, ih _ _ hnd.2 h, dictGet_mergeField_ne al bf f0 v0 field h0]

theorem mergeEntry_eq (al : Bool) (acc : Coll) (name : String) (v : JValue)
    (h : ∀ w, dictGet acc name = some w → ∃ bf, w = JValue.obj bf) :
    mergeEntry al acc name v =
      some (dictInsert acc name (mergedEntryValue al (dictGet acc name) v)) := by
  cases hacc : dictGet acc name with
  | none => cases v <;> simp [mergeEntry, hacc, mergedEntryValue]
  | some w =>
      obtain ⟨bf, rfl⟩ := h w hacc
      cases v <;> simp [mergeEntry, hacc, mergedEntryValue]

theorem mergeAll_spec (al : Bool) (baseC : Coll) :
    ∀ (os : List (String × JValue)) (acc : Coll),
      (os.map Prod.fst).Nodup →
      (∀ p ∈ os, dictGet acc p.1 = dictGet baseC p.1) →
      (∀ p ∈ os, ∀ w, dictGet baseC p.1 = some w → ∃ bf, w = JValue.obj bf) →
      ∃ r,
        os.foldl (fun a q => a.bind (fun c => mergeEntry al c q.1 q.2)) (some acc) = some r ∧
        (∀ n, n ∉ os.map Prod.fst → dictGet r n = dictGet acc n) ∧
        (∀ p ∈ os, dictGet r p.1 = some (mergedEntryValue al (dictGet baseC p.1) p.2)) ∧
        r.map Prod.fst = acc.map Prod.fst ++
          (os.map Prod.fst).filter (fun n => decide (n ∉ acc.map Prod.fst)) := by
  intro os
  induction os with
  | nil =>
      intro acc _ _ _
      exact ⟨acc, rfl, fun n _ => rfl, by simp, by simp⟩
  | cons q t ih =>
      intro acc hnd hinv hobj
      obtain ⟨n0, v0⟩ := q
      rw [List.map_cons, List.nodup_cons] at hnd
      have hn0 : n0 ∉ List.map Prod.fst t := hnd.1
      have hob : ∀ w, dictGet acc n0 = some w → ∃ bf, w = JValue.obj bf := by
        intro w hw
        refine hobj (n0, v0) (by simp) w ?_
        rw [← hinv (n0, v0) (by simp)]
        exact hw
      have hstep := mergeEntry_eq al acc n0 v0 hob
      have hinv' : ∀ p ∈ t,
          dictGet (dictInsert acc n0 (mergedEntryValue al (dictGet acc n0) v0)) p.1 =
            dictGet baseC p.1 := by
        intro p hp
        have hne : n0 ≠ p.1 := by
          intro he
          apply hn0
          rw [he]
          exact List.mem_map_of_mem Prod.fst hp
        rw [dictGet_dictInsert_ne _ _ _ _ hne]
        exact hinv p (List.mem_cons_of_mem _ hp)
      have hobj' : ∀ p ∈ t, ∀ w, dictGet baseC p.1 = some w → ∃ bf, w = JValue.obj bf :=
        fun p hp => hobj p (List.mem_cons_of_mem _ hp)
      obtain ⟨r, hfold, huntouched, hchar, hkeys⟩ :=
        ih (dictInsert acc n0 (mergedEntryValue al (dictGet acc n0) v0)) hnd.2 hinv' hobj'
      refine ⟨r, ?_, ?_, ?_, ?_⟩
      · rw [List.foldl_cons]
        show List.foldl _ ((some acc).bind (fun c => mergeEntry al c n0 v0)) t = some r
        rw [Option.some_bind, hstep]
        exact hfold
      · intro n hn
        rw [List.map_cons, List.mem_cons] at hn
        push_neg at hn
        have hne : n0 ≠ n := fun he => hn.1 he.symm
        rw [huntouched n hn.2, dictGet_dictInsert_ne _ _ _ _ hne]
      · intro p hp
        rcases List.mem_cons.mp hp with h | h
        · rw [h]
          rw [huntouched n0 hn0, dictGet_dictInsert_self, hinv (n0, v0) (by simp)]
        · exact hchar p h
      · rw [hkeys, keys_dictInsert, List.map_cons, List.filter_cons]
        by_cases hmem : n0 ∈ acc.map Prod.fst
        · simp only [if_pos hmem]
          have hd0 : decide (n0 ∉ acc.map Prod.fst) = false := by simp [hmem]
          rw [hd0]
          simp
        · simp only [if_neg hmem]
          have hd0 : decide (n0 ∉ acc.map Prod.fst) = true := by simp [hmem]
          rw [hd0]
          simp only [if_pos]
          rw [List.append_assoc, List.singleton_append]
          congr 1
          congr 1
          apply List.filter_congr
          intro x hx
          have hxne : ¬ x = n0 := by
            intro he
            apply hn0
            rw [← he]
            exact hx
          simp [List.mem_append, hxne]

theorem keys_baseColl (base : List (String × Fields)) :
    (baseColl base).map Prod.fst = base.map Prod.fst := by
  induction base with
  | nil => rfl
  | cons hd t _ => simp [baseColl]

theorem mergeScenarios_spec (al : Bool) (base : List (String × Fields))
    (override : List (String × JValue)) (hnd : (override.map Prod.fst).Nodup) :
    ∃ r, mergeScenarios al base override = some r ∧
      (∀ n, n ∉ override.map Prod.fst → dictGet r n = dictGet (baseColl base) n) ∧
      (∀ p ∈ override,
        dictGet r p.1 = some (mergedEntryValue al (dictGet (baseColl base) p.1) p.2)) ∧
      r.map Prod.fst = base.map Prod.fst ++
        (override.map Prod.fst).filter (fun n => decide (n ∉ base.map Prod.fst)) := by
  have hobj : ∀ p ∈ override, ∀ w,
      dictGet (baseColl base) p.1 = some w → ∃ bf, w = JValue.obj bf := by
    intro p _ w hw
    rw [dictGet_baseColl] at hw
    cases hb : dictGet base p.1 with
    | none => rw [hb] at hw; simp at hw
    | some bf =>
        rw [hb] at hw
        simp at hw
        exact ⟨bf, hw.symm⟩
  obtain ⟨r, h1, h2, h3, h4⟩ :=
    mergeAll_spec al (baseColl base) override (baseColl base) hnd (fun _ _ => rfl) hobj
  refine ⟨r, h1, h2, h3, ?_⟩
  rw [h4, keys_baseColl]

theorem load_parsed_obj (al : Bool) (base : List (String × Fields))
    (override : List (String × JValue)) (r : Coll)
    (h : mergeScenarios al base override = some r) :
    load al base (OverlayDoc.parsed (JValue.obj override)) = (r, false) := by
  simp [load, h]

theorem mem_keys_dictInsert_self {β : Type} (d : List (String × β)) (k : String) (v : β) :
    k ∈ (dictInsert d k v).map Prod.fst := by
  by_cases h : k ∈ d.map Prod.fst
  · rw [keys_dictInsert, if_pos h]; exact h
  · rw [keys_dictInsert, if_neg h]; simp

theorem lowerMapOf_pairs (avail : List String) :
    ∀ p ∈ lowerMapOf avail, pyLower p.2 = p.1 ∧ p.2 ∈ avail := by
  suffices h : ∀ (ns : List String) (m : List (String × String)),
      (∀ p ∈ m, pyLower p.2 = p.1 ∧ p.2 ∈ avail) →
      (∀ n ∈ ns, n ∈ avail) →
      ∀ p ∈ ns.foldl (fun m n => dictInsert m (pyLower n) n) m,
        pyLower p.2 = p.1 ∧ p.2 ∈ avail by
    intro p hp
    exact h avail [] (by simp) (fun n hn => hn) p hp
  intro ns
  induction ns with
  | nil => intro m hm _ p hp; exact hm p hp
  | cons n t ih =>
      intro m hm hns p hp
      rw [List.foldl_cons] at hp
      refine ih (dictInsert m (pyLower n) n) ?_ (fun x hx => hns x (by simp [hx])) p hp
      intro q hq
      rcases mem_dictInsert m (pyLower n) n q hq with h | h
      · exact hm q h
      · rw [h]
        exact ⟨rfl, hns n (by simp)⟩

theorem dictGet_lowerMapOf (avail : List String) (k c : String)
    (h : dictGet (lowerMapOf avail) k = some c) : c ∈ avail ∧ pyLower c = k := by
  have := lowerMapOf_pairs avail (k, c) (dictGet_mem _ _ _ h)
  exact ⟨this.2, this.1⟩

theorem mem_keys_lowerMapOf (avail : List String) (k : String) (h : k ∈ avail) :
    pyLower k ∈ (lowerMapOf avail).map Prod.fst := by
  suffices h' : ∀ (ns : List String) (m : List (String × String)),
      (k ∈ ns ∨ pyLower k ∈ m.map Prod.fst) →
      pyLower k ∈ ((ns.foldl (fun m n => dictInsert m (pyLower n) n) m).map Prod.fst) by
    exact h' avail [] (Or.inl h)
  intro ns
  induction ns with
  | nil =>
      intro m hm
      rcases hm with h | h
      · simp at h
      · exact h
  | cons n t ih =>
      intro m hm
      rw [List.foldl_cons]
      apply ih
      rcases hm with hm | hm
      · rcases List.mem_cons.mp hm with he | hm2
        · right
          rw [he]
          exact mem_keys_dictInsert_self m (pyLower n) n
        · left
          exact hm2
      · right
        exact mem_keys_dictInsert_of_mem _ _ _ _ hm

theorem pickFold_some (word : List Char) :
    ∀ (t : List String) (b : String),
      ∃ m, t.foldl (fun best x =>
        match best with
        | none => some x
        | some b => if betterCand word x b then some x else some b) (some b) = some m := by
  intro t
  induction t with
  | nil => intro b; exact ⟨b, rfl⟩
  | cons y t ih =>
      intro b
      rw [List.foldl_cons]
      show ∃ m, t.foldl _ (if betterCand word y b then some y else some b) = some m
      by_cases h : betterCand word y b = true
      · rw [if_pos h]; exact ih y
      · rw [if_neg (by simpa using h)]; exact ih b

theorem getCloseMatch_isSome (word : List Char) (poss : List String) (x : String)
    (hx : x ∈ poss) (hcut : passesCutoff x.data word = true) :
    ∃ m, getCloseMatch word poss = some m := by
  unfold getCloseMatch
  cases hc : poss.filter (fun s => passesCutoff s.data word) with
  | nil =>
      exfalso
      have : x ∈ poss.filter (fun s => passesCutoff s.data word) :=
        List.mem_filter.mpr ⟨hx, hcut⟩
      rw [hc] at this
      simp at this
  | cons y t =>
      rw [List.foldl_cons]
      exact pickFold_some word t y

theorem getCloseMatch_eq_none (word : List Char) (poss : List String)
    (h : ∀ x ∈ poss, passesCutoff x.data word = false) :
    getCloseMatch word poss = none := by
  unfold getCloseMatch
  have hnil : poss.filter (fun s => passesCutoff s.data word) = [] := by
    rw [List.filter_eq_nil_iff]
    intro a ha
    simp [h a ha]
  rw [hnil]
  rfl

theorem pickFold_mem (word : List Char) (P : String → Prop) :
    ∀ (t : List String) (b : Option String),
      (∀ x, b = some x → P x) → (∀ x ∈ t, P x) →
      ∀ m, t.foldl (fun best x =>
        match best with
        | none => some x
        | some b => if betterCand word x b then some x else some b) b = some m → P m := by
  intro t
  induction t with
  | nil => intro b hb _ m hm; exact hb m hm
  | cons y t ih =>
      intro b hb ht m hm
      rw [List.foldl_cons] at hm
      refine ih _ ?_ (fun x hx => ht x (List.mem_cons_of_mem _ hx)) m hm
      intro x hx
      cases b with
      | none =>
          simp at hx
          rw [← hx]
          exact ht y (by simp)
      | some b0 =>
          have hred : (match some b0 with
              | none => some y
              | some b => if betterCand word y b then some y else some b) =
              if betterCand word y b0 then some y else some b0 := rfl
          rw [hred] at hx
          by_cases hbet : betterCand word y b0 = true
          · rw [if_pos hbet] at hx
            simp at hx
            rw [← hx]
            exact ht y (by simp)
          · rw [if_neg hbet] at hx
            exact hb x hx

theorem getCloseMatch_mem (word : List Char) (poss : List String) (m : String)
    (h : getCloseMatch word poss = some m) :
    m ∈ poss ∧ passesCutoff m.data word = true := by
  unfold getCloseMatch at h
  refine pickFold_mem word (fun s => s ∈ poss ∧ passesCutoff s.data word = true)
    (poss.filter (fun x => passesCutoff x.data word)) none (by intro x hx; cases hx) ?_ m h
  intro x hx
  exact ⟨(List.mem_filter.mp hx).1, (List.mem_filter.mp hx).2⟩

/-- Counterexample to claim C1 as stated: overlaying the non-mapping value
`"x"` onto the base scenario `"S"` replaces the whole entry verbatim, so the
base field `"setting"` is no longer present in the merged entry. -/
theorem claim1_counterexample :
    "setting" ∈ dFields.map Prod.fst ∧
    dictGet ((load false dBase (OverlayDoc.parsed (JValue.obj dOvBad))).1) "S" =
      some (JValue.str "x") ∧
    ¬ ∃ rf : Fields,
        dictGet ((load false dBase (OverlayDoc.parsed (JValue.obj dOvBad))).1) "S" =
          some (JValue.obj rf) ∧ "setting" ∈ rf.map Prod.fst := by
  refine ⟨by simp [dFields], rfl, ?_⟩
  rintro ⟨rf, hrf, -⟩
  rw [show dictGet ((load false dBase (OverlayDoc.parsed (JValue.obj dOvBad))).1) "S" =
    some (JValue.str "x") from rfl] at hrf
  simp at hrf

/-- Claim C1 (amended): for every parsed-object overlay and base scenario
name, whenever the overlay omits that name or maps it to a mapping, every
field of the base entry is still present in that scenario's merged entry;
only a non-mapping overlay value (which replaces the entry verbatim) can
drop base fields. -/
theorem claim1_amended (al : Bool) (base : List (String × Fields))
    (override : List (String × JValue)) (name : String) (bf : Fields)
    (hnd : (override.map Prod.fst).Nodup)
    (hb : dictGet base name = some bf)
    (hov : dictGet override name = none ∨
      ∃ of, dictGet override name = some (JValue.obj of)) :
    ∃ rf : Fields,
      dictGet ((load al base (OverlayDoc.parsed (JValue.obj override))).1) name =
        some (JValue.obj rf) ∧
      ∀ f ∈ bf.map Prod.fst, f ∈ rf.map Prod.fst := by
  obtain ⟨r, hm, huntouched, hchar, _⟩ := mergeScenarios_spec al base override hnd
  rw [load_parsed_obj al base override r hm]
  have hbase : dictGet (baseColl base) name = some (JValue.obj bf) := by
    rw [dictGet_baseColl, hb]
    rfl
  rcases hov with hov | ⟨of, hov⟩
  · have hnk : name ∉ override.map Prod.fst := (dictGet_eq_none_iff override name).mp hov
    have heq : dictGet r name = dictGet (baseColl base) name := huntouched name hnk
    exact ⟨bf, by rw [heq, hbase], fun f hf => hf⟩
  · have hcharv : dictGet r name =
        some (mergedEntryValue al (dictGet (baseColl base) name) (JValue.obj of)) :=
      hchar (name, JValue.obj of) (dictGet_mem _ _ _ hov)
    rw [hbase] at hcharv
    refine ⟨mergeFields al bf of, by rw [hcharv]; rfl, ?_⟩
    intro f hf
    exact mem_keys_mergeFields al f of bf hf

/-- Witness for claim C1 (amended) at a concrete input: the overlay adds a
new scenario and does not touch `"S"`, so the base fields survive. -/
theorem claim1_witness :
    ∃ rf : Fields,
      dictGet ((load false dBase (OverlayDoc.parsed (JValue.obj dOvNew))).1) "S" =
        some (JValue.obj rf) ∧
      ∀ f ∈ dFields.map Prod.fst, f ∈ rf.map Prod.fst :=
  claim1_amended false dBase dOvNew "S" dFields (by decide) rfl (Or.inl rfl)

/-- Counterexample to claim C2 as stated: a missing overlay file and a
top-level non-object overlay both return the base collection with NO
warning-level diagnostic (the code only logs when an exception is caught,
and neither case raises). -/
theorem claim2_counterexample :
    load false dBase OverlayDoc.absent = (baseColl dBase, false) ∧
    load false dBase (OverlayDoc.parsed (JValue.str "nope")) = (baseColl dBase, false) :=
  ⟨rfl, rfl⟩

/-- Claim C2 (amended): for every malformed overlay, `load` returns the base
collection and lets no exception escape; the warning-level diagnostic is
emitted exactly when reading or parsing raised (unreadable file, invalid
JSON syntax) — a missing file or a top-level non-object value falls back to
the base silently. -/
theorem claim2_amended (al : Bool) (base : List (String × Fields)) :
    load al base OverlayDoc.absent = (baseColl base, false) ∧
    load al base OverlayDoc.unreadable = (baseColl base, true) ∧
    ∀ v : JValue, v.isObj = false →
      load al base (OverlayDoc.parsed v) = (baseColl base, false) := by
  refine ⟨rfl, rfl, ?_⟩
  intro v hv
  cases v with
  | obj fs => simp [JValue.isObj] at hv
  | null => rfl
  | bool b => rfl
  | num n => rfl
  | str s => rfl
  | arr xs => rfl

/-- Witness for claim C2 (amended) at a concrete input. -/
theorem claim2_witness :
    load false dBase (OverlayDoc.parsed (JValue.num 3)) = (baseColl dBase, false) :=
  (claim2_amended false dBase).2.2 (JValue.num 3) rfl

/-- Claim C7: loading with no overlay document returns the base collection
exactly, for every append-lists flag and non-empty base. -/
theorem claim7_load_identity (al : Bool) (base : List (String × Fields))
    (_hne : base ≠ []) :
    load al base OverlayDoc.absent = (baseColl base, false) := rfl

/-- Witness for claim C7 at a concrete input. -/
theorem claim7_witness :
    load true dBase OverlayDoc.absent = (baseColl dBase, false) :=
  claim7_load_identity true dBase (by simp [dBase])

/-- Claim C3: when base and overlay both provide a list for the same field
of the same scenario, `appendLists = false` replaces the base list with the
overlay list, while `appendLists = true` keeps the base list and appends
exactly the overlay elements not already present in it (membership by value
equality — the final conjunct identifies the code's `in` test with `=`),
in overlay order. -/
theorem claim3_list_merge (al : Bool) (base : List (String × Fields))
    (override : List (String × JValue)) (name field : String)
    (bf of : Fields) (bl ol : List JValue)
    (hndo : (override.map Prod.fst).Nodup)
    (hndf : (of.map Prod.fst).Nodup)
    (hb : dictGet base name = some bf)
    (hov : dictGet override name = some (JValue.obj of))
    (hbl : dictGet bf field = some (JValue.arr bl))
    (hol : dictGet of field = some (JValue.arr ol)) :
    ∃ r rf, mergeScenarios al base override = some r ∧
      dictGet r name = some (JValue.obj rf) ∧
      dictGet rf field =
        some (JValue.arr (if al then bl ++ ol.filter (fun x => ! jmem x bl) else ol)) ∧
      ∀ x : JValue, jmem x bl = true ↔ x ∈ bl := by
  obtain ⟨r, hm, _, hchar, _⟩ := mergeScenarios_spec al base override hndo
  have hbase : dictGet (baseColl base) name = some (JValue.obj bf) := by
    rw [dictGet_baseColl, hb]
    rfl
  have hcharv : dictGet r name =
      some (mergedEntryValue al (dictGet (baseColl base) name) (JValue.obj of)) :=
    hchar (name, JValue.obj of) (dictGet_mem _ _ _ hov)
  rw [hbase] at hcharv
  refine ⟨r, mergeFields al bf of, hm, by rw [hcharv]; rfl, ?_, fun x => jmem_iff x bl⟩
  rw [mergeFields_get_some al field of bf (JValue.arr ol) hndf hol, hbl]
  cases al <;> rfl

/-- Witness for claim C3 at the spec's concrete input: base
`useful_phrases = ["P1"]`, overlay `["P2"]`; replace mode gives `["P2"]`,
append mode gives `["P1", "P2"]`. -/
theorem claim3_witness :
    (∃ r rf, mergeScenarios false dBase dOvList = some r ∧
      dictGet r "S" = some (JValue.obj rf) ∧
      dictGet rf "useful_phrases" = some (JValue.arr [JValue.str "P2"]) ∧
      ∀ x : JValue, jmem x [JValue.str "P1"] = true ↔ x ∈ [JValue.str "P1"]) ∧
    (∃ r rf, mergeScenarios true dBase dOvList = some r ∧
      dictGet r "S" = some (JValue.obj rf) ∧
      dictGet rf "useful_phrases" = some (JValue.arr [JValue.str "P1", JValue.str "P2"]) ∧
      ∀ x : JValue, jmem x [JValue.str "P1"] = true ↔ x ∈ [JValue.str "P1"]) :=
  ⟨claim3_list_merge false dBase dOvList "S" "useful_phrases" dFields
      [("useful_phrases", JValue.arr [JValue.str "P2"])]
      [JValue.str "P1"] [JValue.str "P2"] (by decide) (by decide) rfl rfl rfl rfl,
    claim3_list_merge true dBase dOvList "S" "useful_phrases" dFields
      [("useful_phrases", JValue.arr [JValue.str "P2"])]
      [JValue.str "P1"] [JValue.str "P2"] (by decide) (by decide) rfl rfl rfl rfl⟩

/-- Claim C4: when base and overlay both provide a mapping for the same
field of the same scenario, the merged field is the key-wise union: every
overlay key gets its overlay value, and every base key absent from the
overlay keeps its base value. -/
theorem claim4_map_merge (al : Bool) (base : List (String × Fields))
    (override : List (String × JValue)) (name field : String)
    (bf of : Fields) (bn ov : List (String × JValue))
    (hndo : (override.map Prod.fst).Nodup)
    (hndf : (of.map Prod.fst).Nodup)
    (hndn : (ov.map Prod.fst).Nodup)
    (hb : dictGet base name = some bf)
    (hov : dictGet override name = some (JValue.obj of))
    (hbn : dictGet bf field = some (JValue.obj bn))
    (hon : dictGet of field = some (JValue.obj ov)) :
    ∃ r rf, mergeScenarios al base override = some r ∧
      dictGet r name = some (JValue.obj rf) ∧
      dictGet rf field = some (JValue.obj (dictUpdate bn ov)) ∧
      (∀ k v, dictGet ov k = some v → dictGet (dictUpdate bn ov) k = some v) ∧
      (∀ k, dictGet ov k = none → dictGet (dictUpdate bn ov) k = dictGet bn k) := by
  obtain ⟨r, hm, _, hchar, _⟩ := mergeScenarios_spec al base override hndo
  have hbase : dictGet (baseColl base) name = some (JValue.obj bf) := by
    rw [dictGet_baseColl, hb]
    rfl
  have hcharv : dictGet r name =
      some (mergedEntryValue al (dictGet (baseColl base) name) (JValue.obj of)) :=
    hchar (name, JValue.obj of) (dictGet_mem _ _ _ hov)
  rw [hbase] at hcharv
  refine ⟨r, mergeFields al bf of, hm, by rw [hcharv]; rfl, ?_, ?_, ?_⟩
  · rw [mergeFields_get_some al field of bf (JValue.obj ov) hndf hon, hbn]
    rfl
  · intro k v hk
    exact dictGet_dictUpdate_of_some k ov bn v hndn hk
  · intro k hk
    exact dictGet_dictUpdate_of_none k ov bn hk

/-- Witness for claim C4 at the spec's concrete input: overlaying vocabulary
`{"x": "y"}` onto base vocabulary `{"a": "b"}` yields `{"a": "b", "x": "y"}`. -/
theorem claim4_witness :
    ∃ r rf, mergeScenarios false dBase dOvMap = some r ∧
      dictGet r "S" = some (JValue.obj rf) ∧
      dictGet rf "vocabulary" =
        some (JValue.obj [("a", JValue.str "b"), ("x", JValue.str "y")]) ∧
      (∀ k v, dictGet [("x", JValue.str "y")] k = some v →
        dictGet [("a", JValue.str "b"), ("x", JValue.str "y")] k = some v) ∧
      (∀ k, dictGet [("x", JValue.str "y")] k = none →
        dictGet [("a", JValue.str "b"), ("x", JValue.str "y")] k =
          dictGet [("a", JValue.str "b")] k) :=
  claim4_map_merge false dBase dOvMap "S" "vocabulary" dFields
    [("vocabulary", JValue.obj [("x", JValue.str "y")])]
    [("a", JValue.str "b")] [("x", JValue.str "y")]
    (by decide) (by decide) (by decide) rfl rfl rfl rfl

/-- Claim C9: an overlay entry whose name is absent from the base, or whose
value is not a mapping, is inserted (or replaces the whole entry) verbatim
in the merged collection, with no recursive merge. -/
theorem claim9_verbatim (al : Bool) (base : List (String × Fields))
    (override : List (String × JValue)) (name : String) (v : JValue)
    (hnd : (override.map Prod.fst).Nodup)
    (hov : dictGet override name = some v)
    (hcase : name ∉ base.map Prod.fst ∨ v.isObj = false) :
    ∃ r, mergeScenarios al base override = some r ∧ dictGet r name = some v := by
  obtain ⟨r, hm, _, hchar, _⟩ := mergeScenarios_spec al base override hnd
  have hcharv : dictGet r name =
      some (mergedEntryValue al (dictGet (baseColl base) name) v) :=
    hchar (name, v) (dictGet_mem _ _ _ hov)
  refine ⟨r, hm, ?_⟩
  rcases hcase with hc | hc
  · have hnone : dictGet (baseColl base) name = none := by
      rw [dictGet_baseColl, (dictGet_eq_none_iff base name).mpr hc]
      rfl
    rw [hcharv, hnone]
    cases v <;> rfl
  · rw [hcharv]
    cases hbv : dictGet (baseColl base) name with
    | none => rfl
    | some w => cases w <;> cases v <;> first | rfl | simp [JValue.isObj] at hc

/-- Witness for claim C9 at a concrete input: a non-mapping overlay value for
the base name `"S"` replaces the whole entry verbatim. -/
theorem claim9_witness :
    ∃ r, mergeScenarios false dBase dOvBad = some r ∧
      dictGet r "S" = some (JValue.str "x") :=
  claim9_verbatim false dBase dOvBad "S" (JValue.str "x") (by decide) rfl (Or.inr rfl)

/-- Claim C8: the merged collection lists the base names in base order
followed by the overlay-introduced names in overlay order, and an
overlay entry with a brand-new name is listed and retrievable unchanged. -/
theorem claim8_list_names (al : Bool) (base : List (String × Fields))
    (override : List (String × JValue))
    (hnd : (override.map Prod.fst).Nodup) :
    ∃ r, mergeScenarios al base override = some r ∧
      listNames r = base.map Prod.fst ++
        (override.map Prod.fst).filter (fun n => decide (n ∉ base.map Prod.fst)) ∧
      ∀ name v, dictGet override name = some v → name ∉ base.map Prod.fst →
        name ∈ listNames r ∧ dictGet r name = some v := by
  obtain ⟨r, hm, _, hchar, hkeys⟩ := mergeScenarios_spec al base override hnd
  refine ⟨r, hm, hkeys, ?_⟩
  intro name v hov hnb
  constructor
  · show name ∈ r.map Prod.fst
    rw [hkeys, List.mem_append]
    right
    refine List.mem_filter.mpr ⟨?_, by simp [hnb]⟩
    have hmem := dictGet_mem _ _ _ hov
    exact List.mem_map_of_mem Prod.fst hmem
  · have hcharv : dictGet r name =
        some (mergedEntryValue al (dictGet (baseColl base) name) v) :=
      hchar (name, v) (dictGet_mem _ _ _ hov)
    have hnone : dictGet (baseColl base) name = none := by
      rw [dictGet_baseColl, (dictGet_eq_none_iff base name).mpr hnb]
      rfl
    rw [hcharv, hnone]
    cases v <;> rfl

/-- Witness for claim C8 at a concrete input: an overlay introducing the
brand-new scenario `"T"`. -/
theorem claim8_witness :
    ∃ r, mergeScenarios false dBase dOvNew = some r ∧
      listNames r = ["S", "T"] ∧
      ∀ name v, dictGet dOvNew name = some v → name ∉ dBase.map Prod.fst →
        name ∈ listNames r ∧ dictGet r name = some v :=
  claim8_list_names false dBase dOvNew (by decide)

set_option maxRecDepth 10000 in
/-- Claim C5: scenario-name resolution order — an exact key match wins;
otherwise a case-insensitive match through `lower_map` wins (the returned
name is a collection key with the requested lowercasing); otherwise the
result is `NotFound` with a suggestion from the collection exactly when some
lowercased key reaches the 0.6 similarity-ratio cutoff, and `NotFound`
without a suggestion otherwise; concretely, `"Restauran"` against a
collection containing `"Restaurant"` suggests `"Restaurant"`. -/
theorem claim5_resolution_order (avail : List String) (requested : String) :
    (requested ∈ avail → lookup avail requested = LookupResult.found requested) ∧
    (requested ∉ avail →
      ∀ c, dictGet (lowerMapOf avail) (pyLower requested) = some c →
        lookup avail requested = LookupResult.found c ∧ c ∈ avail ∧
          pyLower c = pyLower requested) ∧
    (requested ∉ avail → dictGet (lowerMapOf avail) (pyLower requested) = none →
      ((∃ k ∈ (lowerMapOf avail).map Prod.fst,
          passesCutoff k.data (pyLower requested).data = true) →
        ∃ s, lookup avail requested = LookupResult.notFound (some s) ∧ s ∈ avail) ∧
      ((∀ k ∈ (lowerMapOf avail).map Prod.fst,
          passesCutoff k.data (pyLower requested).data = false) →
        lookup avail requested = LookupResult.notFound none)) ∧
    lookup ["Bäckerei", "Apotheke", "Restaurant"] "Restauran" =
      LookupResult.notFound (some "Restaurant") := by
  refine ⟨?_, ?_, ?_, by decide⟩
  · intro h
    simp [lookup, h]
  · intro h c hc
    obtain ⟨hmem, hlow⟩ := dictGet_lowerMapOf avail (pyLower requested) c hc
    exact ⟨by simp [lookup, h, hc], hmem, hlow⟩
  · intro h hnone
    constructor
    · rintro ⟨k, hk, hcut⟩
      obtain ⟨m, hm⟩ := getCloseMatch_isSome (pyLower requested).data
        ((lowerMapOf avail).map Prod.fst) k hk hcut
      have hmmem := getCloseMatch_mem _ _ _ hm
      cases hgc : dictGet (lowerMapOf avail) m with
      | none => exact absurd hmmem.1 ((dictGet_eq_none_iff _ _).mp hgc)
      | some c =>
          refine ⟨c, ?_, (dictGet_lowerMapOf avail m c hgc).1⟩
          simp [lookup, h, hnone, hm, hgc]
    · intro hall
      have hg := getCloseMatch_eq_none (pyLower requested).data
        ((lowerMapOf avail).map Prod.fst) hall
      simp [lookup, h, hnone, hg]

/-- Witness for claim C5 at the spec's concrete input, via the theorem. -/
theorem claim5_witness :
    lookup ["Bäckerei", "Apotheke", "Restaurant"] "Restauran" =
      LookupResult.notFound (some "Restaurant") :=
  (claim5_resolution_order ["Bäckerei", "Apotheke", "Restaurant"] "Restauran").2.2.2

/-- Claim C6: for every collection and requested name, the resolution is
total (no exception): it returns either `found` of a collection member or a
`NotFound` with an optional suggestion; on the empty collection it is
`NotFound` with no suggestion for every requested name including `""`.
The embedding is a pure function of `(avail, requested)`, which is the
no-mutation guarantee: the collection is not an output of the code at all. -/
theorem claim6_lookup_total (avail : List String) (requested : String) :
    ((∃ c, c ∈ avail ∧ lookup avail requested = LookupResult.found c) ∨
      (∃ s : Option String, lookup avail requested = LookupResult.notFound s)) ∧
    lookup [] requested = LookupResult.notFound none ∧
    lookup [] "" = LookupResult.notFound none := by
  refine ⟨?_, ?_, rfl⟩
  · by_cases h : requested ∈ avail
    · exact Or.inl ⟨requested, h, by simp [lookup, h]⟩
    · cases hc : dictGet (lowerMapOf avail) (pyLower requested) with
      | some c =>
          exact Or.inl ⟨c, (dictGet_lowerMapOf _ _ _ hc).1, by simp [lookup, h, hc]⟩
      | none =>
          right
          cases hg : getCloseMatch (pyLower requested).data
              ((lowerMapOf avail).map Prod.fst) with
          | some m =>
              exact ⟨some ((dictGet (lowerMapOf avail) m).getD m),
                by simp [lookup, h, hc, hg]⟩
          | none => exact ⟨none, by simp [lookup, h, hc, hg]⟩
  · cases h : dictGet (lowerMapOf []) (pyLower requested) with
    | some c => simp [lowerMapOf] at h
    | none => simp [lookup, h, lowerMapOf, getCloseMatch]

/-- Counterexample to claim C10 as stated: with a collection whose
`"Bäckerei"` entry exists but is falsy (here `0`, as the overlay
`{"Bäckerei": 0}` produces), a lookup miss returns the placeholder even
though the `"Bäckerei"` entry is present — contradicting «only when
"Bäckerei" is also absent does it return a placeholder». -/
theorem claim10_counterexample :
    dictGet cBack "Bäckerei" = some (JValue.num 0) ∧
    dictGet cBack "X" = none ∧
    scenarioOp cBack "X" = some placeholderView :=
  ⟨rfl, rfl, rfl⟩

/-- Claim C10 (amended): for every requested name absent from the
collection, `scenario` behaves exactly as if `"Bäckerei"` had been
requested; it returns the placeholder when the `"Bäckerei"` entry is absent
and also when that entry is falsy, and it returns the fields of the
`"Bäckerei"` entry when that entry is a truthy mapping. -/
theorem claim10_amended (coll : Coll) (name : String)
    (h : dictGet coll name = none) :
    scenarioOp coll name = scenarioOp coll "Bäckerei" ∧
    (dictGet coll "Bäckerei" = none → scenarioOp coll name = some placeholderView) ∧
    (∀ v, dictGet coll "Bäckerei" = some v → pyTruthy v = false →
      scenarioOp coll name = some placeholderView) ∧
    (∀ fs, dictGet coll "Bäckerei" = some (JValue.obj fs) →
      pyTruthy (JValue.obj fs) = true →
      scenarioOp coll name = some (viewOf fs)) := by
  refine ⟨?_, ?_, ?_, ?_⟩
  · cases hb : dictGet coll "Bäckerei" with
    | none => simp [scenarioOp, h, hb]
    | some v => simp [scenarioOp, h, hb]
  · intro hb
    simp [scenarioOp, h, hb, pyTruthy]
  · intro v hb hf
    simp [scenarioOp, h, hb, hf]
  · intro fs hb ht
    simp [scenarioOp, h, hb, ht]

/-- Witness for claim C10 (amended) at a concrete input: `"Bäckerei"` absent
from the collection, so a miss yields the placeholder. -/
theorem claim10_witness :
    scenarioOp (baseColl dBase) "X" = some placeholderView :=
  (claim10_amended (baseColl dBase) "X" rfl).2.1 rfl
